import Mathlib

/-!
Shallow embedding of the pattern-driven random-string synthesis engine in
`Random Number Generator/qrng_alphanumeric_pattern.py` and
`Random Number Generator/qrng_alphanumeric_alternate.py`.

The quantum entropy source (Qiskit `Statevector.sample_counts`) is out of
scope of the spec and is modelled as an abstract provider
`Nat → List Bool`: the function from the index of the provider call (in
program order) to the bit string that call returns.  The code treats each
returned sample as a left-to-right bit string, which we model as a
`List Bool` (most significant bit first, matching Python's `int(bits, 2)`).

Strings are modelled as `List Char`; floating point entropy is modelled
over `ℝ` (the concrete values the spec pins down are exact in binary
floating point, so the real-valued model agrees with the float one there).
-/

namespace QRNG

/-- A position's character class: `'D'`/`'d'` for digit, `'L'`/`'l'` for letter. -/
inductive CharClass where
  | D : CharClass
  | L : CharClass
deriving DecidableEq, Repr

/-- `string.digits` in the source: the digit alphabet `'0'`–`'9'`. -/
def digits : List Char := "0123456789".toList

/-- `string.ascii_lowercase` in the source: the letter alphabet `'a'`–`'z'`. -/
def letters : List Char := "abcdefghijklmnopqrstuvwxyz".toList

/-- `bits_per_digit = 4`, `bits_per_letter = 5` in the source. -/
def widthOf : CharClass → Nat
  | .D => 4
  | .L => 5

/-- The alphabet attached to a class. -/
def alphabetOf : CharClass → List Char
  | .D => digits
  | .L => letters

/-- `c.upper() in ['D', 'L']`: classify one pattern character, case-insensitively. -/
def classOfChar (c : Char) : Option CharClass :=
  if c.toUpper = 'D' then some .D
  else if c.toUpper = 'L' then some .L
  else none

/-- Python's `int(bits, 2)`: read a bit string most-significant-bit first. -/
def binToNat (bits : List Bool) : Nat :=
  bits.foldl (fun acc b => 2 * acc + (if b then 1 else 0)) 0

/-- One step of the bit-to-symbol mapping of the source
(`digits[int(bits, 2) % 10]` for a digit position,
`letters[int(bits, 2) % 26]` for a letter position). -/
def mapClass (cl : CharClass) (bits : List Bool) : Char :=
  match cl with
  | .D => digits.getD (binToNat bits % 10) ' '
  | .L => letters.getD (binToNat bits % 26) ' '

/-- The symbol index the digit mapper computes from a bit sample:
`int(bits, 2) % 10`. -/
def digitIndexOfBits (bits : List Bool) : Nat :=
  binToNat bits % 10

/-- All bit strings of a given width, used to enumerate the mapper's inputs. -/
def allBitVectors : Nat → List (List Bool)
  | 0 => [[]]
  | n + 1 =>
      (allBitVectors n).map (fun bs => false :: bs) ++
      (allBitVectors n).map (fun bs => true :: bs)

/-- The error conditions the source raises (each a `ValueError` with a
distinct message; the bit-length mismatch message names the expected width,
the actual width and the bit index). -/
inductive GenError where
  | invalidPattern : GenError
  | invalidPatternChars : GenError
  | invalidShots : GenError
  | invalidLength : GenError
  | oddLength : GenError
  | bitLengthMismatch (expected actual index : Nat) : GenError
deriving DecidableEq, Repr

/-- `results[0] if shots == 1 else results`: the success payload is either a
bare string (one shot) or a list of strings. -/
inductive StrOrList where
  | one : List Char → StrOrList
  | many : List (List Char) → StrOrList
deriving DecidableEq, Repr

/-- Classify every pattern character, failing on the first character outside
`{D, L}` (case-insensitive), as `all(c.upper() in ['D', 'L'] ...)` does. -/
def classifyPattern : List Char → Option (List CharClass)
  | [] => some []
  | c :: rest =>
      (classOfChar c).bind (fun cl =>
        (classifyPattern rest).map (fun cls => cl :: cls))

/-- Pattern validation of the source: `not pattern.strip()` rejects
whitespace-only (or empty) patterns, then every character must classify as
`'D'` or `'L'` case-insensitively; on success the pattern is turned into its
list of classes. -/
def patternClasses (pattern : List Char) : Except GenError (List CharClass) :=
  if pattern.all (fun c => c.isWhitespace) then .error .invalidPattern
  else match classifyPattern pattern with
    | none => .error .invalidPatternChars
    | some pat => .ok pat

/-- Sequential sampling of one string: one provider call per pattern
position, in order; the returned bits are used unchecked.  `base` is the
index of the provider call serving the first position. -/
def seqGenString : List CharClass → (Nat → List Bool) → Nat → List Char
  | [], _, _ => []
  | cl :: rest, pr, base => mapClass cl (pr base) :: seqGenString rest pr (base + 1)

/-- Sequential sampling of the whole batch: string-major, position-minor
provider call order (shot `s`, position `k` is call `s * len + k`). -/
def seqGenBatch (pat : List CharClass) (pr : Nat → List Bool) (shots : Nat) :
    List (List Char) :=
  (List.range shots).map (fun s => seqGenString pat pr (s * pat.length))

/-- `total_qubits`: the combined width of one string's draw in parallel
mode, the sum of the per-position widths. -/
def totalWidth (pat : List CharClass) : Nat :=
  (pat.map widthOf).sum

/-- Parallel-mode assembly of one string from the combined sample `key`:
slice `key[bit_index : bit_index + qubits]` per position, raise a
bit-length mismatch naming the expected width, the actual width and the
bit index if the slice is short, else map the slice to a symbol. -/
def parGenStringAux : List CharClass → List Bool → Nat → Except GenError (List Char)
  | [], _, _ => .ok []
  | cl :: rest, key, bitIndex =>
      if ((key.drop bitIndex).take (widthOf cl)).length ≠ widthOf cl then
        .error (.bitLengthMismatch (widthOf cl)
          ((key.drop bitIndex).take (widthOf cl)).length bitIndex)
      else
        match parGenStringAux rest key (bitIndex + widthOf cl) with
        | .error e => .error e
        | .ok tail => .ok (mapClass cl ((key.drop bitIndex).take (widthOf cl)) :: tail)

/-- Parallel-mode assembly of one string, starting at bit index 0. -/
def parGenString (pat : List CharClass) (key : List Bool) : Except GenError (List Char) :=
  parGenStringAux pat key 0

/-- Run one parallel-mode shot per index in the list, aborting the whole
batch at the first error (the source's loop raises out of the function). -/
def runShots (pat : List CharClass) (pr : Nat → List Bool) :
    List Nat → Except GenError (List (List Char))
  | [] => .ok []
  | j :: rest =>
      match parGenString pat (pr j) with
      | .error e => .error e
      | .ok g =>
          match runShots pat pr rest with
          | .error e => .error e
          | .ok gs => .ok (g :: gs)

/-- Parallel sampling of the whole batch: one combined provider draw per
shot (shot `s` is provider call `s`), sliced per position. -/
def parGenBatch (pat : List CharClass) (pr : Nat → List Bool) (shots : Nat) :
    Except GenError (List (List Char)) :=
  runShots pat pr (List.range shots)

/-- The body of `generate_quantum_alphanumeric_string` up to the `results`
list: validation (pattern first, then shots), then parallel sampling when
`parallel and shots > 1`, else sequential sampling.  `shots` is an `Int` so
that non-positive counts are expressible. -/
def generateCore (pattern : List Char) (shots : Int) (parallel : Bool)
    (pr : Nat → List Bool) : Except GenError (List (List Char)) :=
  match patternClasses pattern with
  | .error e => .error e
  | .ok pat =>
      if shots ≤ 0 then .error .invalidShots
      else if parallel ∧ 1 < shots then parGenBatch pat pr shots.toNat
      else .ok (seqGenBatch pat pr shots.toNat)

/-- `results[0] if shots == 1 else results`. -/
def packResults (shots : Int) (results : List (List Char)) : StrOrList :=
  if shots = 1 then .one (results.getD 0 []) else .many results

/-- The frequency table of the source (`char_count` dict): an association
list in first-appearance order, one entry per distinct character. -/
def insertCount : List (Char × Nat) → Char → List (Char × Nat)
  | [], c => [(c, 1)]
  | (d, n) :: rest, c =>
      if c = d then (d, n + 1) :: rest else (d, n) :: insertCount rest c

/-- Fold all characters of the flattened batch into the frequency table. -/
def charCounts (chars : List Char) : List (Char × Nat) :=
  chars.foldl insertCount []

/-- `calculate_entropy`: 0.0 for an empty batch, else the sum over the
frequency table of `-p * log2 p` with `p = count / total_chars` (guarded by
`if p > 0` as in the source). -/
noncomputable def calculate_entropy (strings : List (List Char)) : ℝ :=
  if strings = [] then 0
  else
    let chars := strings.flatten
    let total := chars.length
    ((charCounts chars).map (fun kv =>
      let p : ℝ := (kv.2 : ℝ) / (total : ℝ)
      if 0 < p then -(p * Real.logb 2 p) else 0)).sum

/-- `generate_quantum_alphanumeric_string`: on success, pair the packed
result with the batch entropy; the `except` clause turns every raised error
into the printed-message sentinel `(None, 0.0)`. -/
noncomputable def generate_quantum_alphanumeric_string (pattern : List Char)
    (shots : Int) (parallel : Bool) (pr : Nat → List Bool) :
    Option StrOrList × ℝ :=
  match generateCore pattern shots parallel pr with
  | .error _ => (none, 0)
  | .ok results => (some (packResults shots results), calculate_entropy results)

/-- One string of the alternate generator: position `i` is a digit when
`i % 2 == 0`, else a letter; one provider call per position. -/
def altGenString (len : Nat) (pr : Nat → List Bool) (base : Nat) : List Char :=
  (List.range len).map (fun i =>
    mapClass (if i % 2 = 0 then .D else .L) (pr (base + i)))

/-- The body of `generate_quantum_alphanumeric` up to the `results` list:
length must be a positive even integer; `shots` is never validated
(`range(shots)` is simply empty for `shots ≤ 0`). -/
def altCore (len shots : Int) (pr : Nat → List Bool) :
    Except GenError (List (List Char)) :=
  if len ≤ 0 then .error .invalidLength
  else if len % 2 ≠ 0 then .error .oddLength
  else .ok ((List.range shots.toNat).map (fun s =>
    altGenString len.toNat pr (s * len.toNat)))

/-- `generate_quantum_alphanumeric`: pack the results
(`results[0] if shots == 1 else results`); the `except` clause turns every
raised error into the printed-message sentinel `None`. -/
def generate_quantum_alphanumeric (len shots : Int) (pr : Nat → List Bool) :
    Option StrOrList :=
  match altCore len shots pr with
  | .error _ => none
  | .ok results => some (packResults shots results)

/-- The string parallel mode assembles from a combined sample `key` when no
slice is short: the slice `key[bi : bi + w]` per position, in order. -/
def sliceString : List CharClass → List Bool → Nat → List Char
  | [], _, _ => []
  | cl :: rest, key, bitIndex =>
      mapClass cl ((key.drop bitIndex).take (widthOf cl)) ::
        sliceString rest key (bitIndex + widthOf cl)

/-- A window of `w` consecutive bits of an underlying bit stream, starting
at stream offset `off`.  Used to express "both modes consume the same
underlying bit stream in the documented slicing order". -/
def streamSlice (s : Nat → Bool) (off w : Nat) : List Bool :=
  (List.range w).map (fun j => s (off + j))

/-- The string obtained by consuming the stream position by position from
offset `off`: each position takes the next `widthOf` bits. -/
def specString : List CharClass → (Nat → Bool) → Nat → List Char
  | [], _, _ => []
  | cl :: rest, s, off =>
      mapClass cl (streamSlice s off (widthOf cl)) ::
        specString rest s (off + widthOf cl)

/-- The provider that serves sequential mode from a single underlying bit
stream: call `k` (shot `k / len`, position `k % len`) returns the stream
window holding that position's bits in the documented slicing order. -/
def seqProvider (pat : List CharClass) (s : Nat → Bool) : Nat → List Bool :=
  fun k =>
    streamSlice s
      ((k / pat.length) * totalWidth pat + totalWidth (pat.take (k % pat.length)))
      (widthOf (pat.getD (k % pat.length) .D))

/-- The provider that serves parallel mode from the same underlying bit
stream: call `j` (shot `j`) returns the whole combined window of shot `j`. -/
def parProvider (pat : List CharClass) (s : Nat → Bool) : Nat → List Bool :=
  fun j => streamSlice s (j * totalWidth pat) (totalWidth pat)

/-- The determinism-scenario provider stub: the first call returns `"0000"`,
the next returns `"00001"`. -/
def dlStub : Nat → List Bool
  | 0 => [false, false, false, false]
  | _ => [false, false, false, false, true]

theorem totalWidth_nil : totalWidth [] = 0 := rfl

theorem totalWidth_cons (cl : CharClass) (rest : List CharClass) :
    totalWidth (cl :: rest) = widthOf cl + totalWidth rest := by
  simp [totalWidth]

theorem mapClass_mem (cl : CharClass) (bits : List Bool) :
    mapClass cl bits ∈ alphabetOf cl := by
  cases cl with
  | D =>
      have h : binToNat bits % 10 < digits.length :=
        Nat.mod_lt _ (by norm_num)
      show digits.getD (binToNat bits % 10) ' ' ∈ digits
      rw [List.getD_eq_getElem _ _ h]
      exact List.getElem_mem h
  | L =>
      have h : binToNat bits % 26 < letters.length :=
        Nat.mod_lt _ (by norm_num)
      show letters.getD (binToNat bits % 26) ' ' ∈ letters
      rw [List.getD_eq_getElem _ _ h]
      exact List.getElem_mem h

theorem seqGenString_length (pat : List CharClass) (pr : Nat → List Bool) (base : Nat) :
    (seqGenString pat pr base).length = pat.length := by
  induction pat generalizing base with
  | nil => rfl
  | cons cl rest ih => simp [seqGenString, ih]

theorem seqGenString_getD (pat : List CharClass) (pr : Nat → List Bool) (base i : Nat)
    (h : i < pat.length) :
    (seqGenString pat pr base).getD i ' ' =
      mapClass (pat.getD i CharClass.D) (pr (base + i)) := by
  induction pat generalizing base i with
  | nil => simp at h
  | cons cl rest ih =>
      cases i with
      | zero => simp [seqGenString]
      | succ k =>
          have hk : k < rest.length := by simpa using h
          have harith : base + (k + 1) = base + 1 + k := by omega
          rw [harith]
          simpa [seqGenString] using ih (base + 1) k hk

theorem sliceString_length (pat : List CharClass) (key : List Bool) (bitIndex : Nat) :
    (sliceString pat key bitIndex).length = pat.length := by
  induction pat generalizing bitIndex with
  | nil => rfl
  | cons cl rest ih => simp [sliceString, ih]

theorem parGenStringAux_eq_slice (pat : List CharClass) (key : List Bool) :
    ∀ bitIndex, bitIndex + totalWidth pat ≤ key.length →
    parGenStringAux pat key bitIndex = .ok (sliceString pat key bitIndex) := by
  induction pat with
  | nil => intro bi _; rfl
  | cons cl rest ih =>
      intro bi h
      rw [totalWidth_cons] at h
      have hw : ((key.drop bi).take (widthOf cl)).length = widthOf cl := by
        simp only [List.length_take, List.length_drop]
        omega
      have ht := ih (bi + widthOf cl) (by omega)
      simp [parGenStringAux, sliceString, hw, ht]

theorem parGenStringAux_ok_getD (pat : List CharClass) :
    ∀ (key : List Bool) (bitIndex : Nat) (g : List Char),
      parGenStringAux pat key bitIndex = .ok g →
      ∀ i, i < pat.length →
        ∃ bits, g.getD i ' ' = mapClass (pat.getD i CharClass.D) bits := by
  induction pat with
  | nil => intro key bi g hg i hi; simp at hi
  | cons cl rest ih =>
      intro key bi g hg i hi
      rw [parGenStringAux] at hg
      by_cases hb : ((key.drop bi).take (widthOf cl)).length ≠ widthOf cl
      · rw [if_pos hb] at hg; exact absurd hg (by simp)
      · rw [if_neg hb] at hg
        cases htail : parGenStringAux rest key (bi + widthOf cl) with
        | error e => rw [htail] at hg; exact absurd hg (by simp)
        | ok tail =>
            rw [htail] at hg
            have hg' : mapClass cl ((key.drop bi).take (widthOf cl)) :: tail = g := by
              simpa using hg
            subst hg'
            cases i with
            | zero => exact ⟨_, rfl⟩
            | succ k =>
                have hk : k < rest.length := by simpa using hi
                obtain ⟨bits, hbits⟩ := ih key (bi + widthOf cl) tail htail k hk
                exact ⟨bits, by simpa using hbits⟩

theorem runShots_ok (pat : List CharClass) (pr : Nat → List Bool) (f : Nat → List Char) :
    ∀ l : List Nat, (∀ j ∈ l, parGenString pat (pr j) = .ok (f j)) →
    runShots pat pr l = .ok (l.map f) := by
  intro l
  induction l with
  | nil => intro _; rfl
  | cons j rest ih =>
      intro h
      have hj := h j (by simp)
      have hr := ih (fun x hx => h x (by simp [hx]))
      simp [runShots, hj, hr]

theorem classifyPattern_length :
    ∀ (p : List Char) (pat : List CharClass),
      classifyPattern p = some pat → pat.length = p.length := by
  intro p
  induction p with
  | nil => intro pat h; simp [classifyPattern] at h; simp [← h]
  | cons c rest ih =>
      intro pat h
      simp only [classifyPattern, Option.bind_eq_some, Option.map_eq_some'] at h
      obtain ⟨cl, _, cls, hcls, rfl⟩ := h
      simp [ih cls hcls]

theorem patternClasses_ok_length (p : List Char) (pat : List CharClass)
    (h : patternClasses p = .ok pat) : pat.length = p.length := by
  rw [patternClasses] at h
  split at h
  · exact absurd h (by simp)
  · split at h
    · exact absurd h (by simp)
    · rename_i heq
      cases h
      exact classifyPattern_length p pat heq

theorem generateCore_valid_shape (pattern : List Char) (pat : List CharClass)
    (shots : Int) (parallel : Bool) (pr : Nat → List Bool)
    (hpat : patternClasses pattern = .ok pat)
    (hshots : 1 ≤ shots)
    (hpr : ∀ j, (pr j).length = totalWidth pat) :
    ∃ results, generateCore pattern shots parallel pr = .ok results ∧
      (results.length : Int) = shots ∧
      ∀ g ∈ results, g.length = pattern.length := by
  have hlen : pat.length = pattern.length := patternClasses_ok_length pattern pat hpat
  have h0 : ¬ shots ≤ 0 := by omega
  simp only [generateCore, hpat]
  rw [if_neg h0]
  by_cases hp : parallel ∧ 1 < shots
  · rw [if_pos hp]
    have hall : ∀ j ∈ List.range shots.toNat,
        parGenString pat (pr j) = .ok (sliceString pat (pr j) 0) := by
      intro j _
      exact parGenStringAux_eq_slice pat (pr j) 0 (by rw [hpr j]; omega)
    rw [parGenBatch, runShots_ok pat pr (fun j => sliceString pat (pr j) 0) _ hall]
    refine ⟨_, rfl, ?_, ?_⟩
    · simp only [List.length_map, List.length_range]
      omega
    · intro g hg
      simp only [List.mem_map] at hg
      obtain ⟨j, _, rfl⟩ := hg
      rw [sliceString_length, hlen]
  · rw [if_neg hp]
    refine ⟨_, rfl, ?_, ?_⟩
    · simp only [seqGenBatch, List.length_map, List.length_range]
      omega
    · intro g hg
      simp only [seqGenBatch, List.mem_map] at hg
      obtain ⟨j, _, rfl⟩ := hg
      rw [seqGenString_length, hlen]

/-- C1: for every valid pattern `p`, every shot count `n ≥ 1`, and either
mode, when the provider honours the width contract the synthesizer
produces exactly `n` generated strings, each of length `len(p)`. -/
theorem claim_C1_batch_shape (pattern : List Char) (pat : List CharClass)
    (shots : Int) (parallel : Bool) (pr : Nat → List Bool)
    (hpat : patternClasses pattern = .ok pat)
    (hshots : 1 ≤ shots)
    (hpr : ∀ j, (pr j).length = totalWidth pat) :
    ∃ results, generateCore pattern shots parallel pr = .ok results ∧
      (results.length : Int) = shots ∧
      ∀ g ∈ results, g.length = pattern.length :=
  generateCore_valid_shape pattern pat shots parallel pr hpat hshots hpr

/-- Witness for C1 at pattern `"D"`, one shot, sequential mode, with a
provider returning 4-bit samples. -/
theorem claim_C1_witness :
    ∃ results,
      generateCore "D".toList 1 false (fun _ => [false, false, false, false]) =
        .ok results ∧
      (results.length : Int) = 1 ∧
      ∀ g ∈ results, g.length = "D".toList.length :=
  claim_C1_batch_shape "D".toList [CharClass.D] 1 false
    (fun _ => [false, false, false, false]) rfl (by decide)
    (fun _ => rfl)

/-- C2: every generated character is `alphabet[int(bits, 2) mod size]` for
its position's class, hence lies in that class's alphabet, in either mode;
and with the stub provider returning `"0000"` then `"00001"`, pattern
`"DL"`, one shot, sequential mode, the generated batch is exactly
`["0b"]`. -/
theorem claim_C2_symbol_alphabet :
    (∀ cl bits, mapClass cl bits =
        (alphabetOf cl).getD (binToNat bits % (alphabetOf cl).length) ' ')
  ∧ (∀ pat (pr : Nat → List Bool) base i, i < pat.length →
      (seqGenString pat pr base).getD i ' ' ∈ alphabetOf (pat.getD i CharClass.D))
  ∧ (∀ pat key g i, parGenString pat key = .ok g → i < pat.length →
      g.getD i ' ' ∈ alphabetOf (pat.getD i CharClass.D))
  ∧ generateCore "DL".toList 1 false dlStub = .ok [['0', 'b']] := by
  refine ⟨fun cl bits => by cases cl <;> rfl, ?_, ?_, rfl⟩
  · intro pat pr base i hi
    rw [seqGenString_getD pat pr base i hi]
    exact mapClass_mem _ _
  · intro pat key g i hg hi
    obtain ⟨bits, hbits⟩ := parGenStringAux_ok_getD pat key 0 g hg i hi
    rw [hbits]
    exact mapClass_mem _ _

/-- Witness for C2: the membership parts applied at pattern `[D]` with an
empty-sample provider, and the parallel part at a 4-bit key. -/
theorem claim_C2_witness :
    (seqGenString [CharClass.D] (fun _ => []) 0).getD 0 ' ' ∈
      alphabetOf ([CharClass.D].getD 0 CharClass.D) :=
  claim_C2_symbol_alphabet.2.1 [CharClass.D] (fun _ => []) 0 0 (by decide)

/-- C3: the entropy estimator returns exactly 0 for an empty batch, exactly
0 for `["aa"]`, and exactly 1 for `["ab"]`. -/
theorem claim_C3_entropy_values :
    calculate_entropy [] = 0 ∧
    calculate_entropy [['a', 'a']] = 0 ∧
    calculate_entropy [['a', 'b']] = 1 := by
  refine ⟨by simp [calculate_entropy],
    by simp [calculate_entropy, charCounts, insertCount], ?_⟩
  simp [calculate_entropy, charCounts, insertCount]
  norm_num [Real.logb, Real.log_inv]

/-- C8: over all 16 four-bit samples, the digit mapper index
`int(bits, 2) % 10` takes each of the values 0–5 exactly twice and each of
6–9 exactly once (so, under uniform 4-bit input, with probability 2/16
resp. 1/16). -/
theorem claim_C8_digit_mapping_bias :
    (allBitVectors 4).length = 16 ∧
    ((allBitVectors 4).map digitIndexOfBits).count 0 = 2 ∧
    ((allBitVectors 4).map digitIndexOfBits).count 1 = 2 ∧
    ((allBitVectors 4).map digitIndexOfBits).count 2 = 2 ∧
    ((allBitVectors 4).map digitIndexOfBits).count 3 = 2 ∧
    ((allBitVectors 4).map digitIndexOfBits).count 4 = 2 ∧
    ((allBitVectors 4).map digitIndexOfBits).count 5 = 2 ∧
    ((allBitVectors 4).map digitIndexOfBits).count 6 = 1 ∧
    ((allBitVectors 4).map digitIndexOfBits).count 7 = 1 ∧
    ((allBitVectors 4).map digitIndexOfBits).count 8 = 1 ∧
    ((allBitVectors 4).map digitIndexOfBits).count 9 = 1 := by
  decide

/-- C4 counterexample: two different failures — an invalid pattern
character and a non-positive shot count — produce the identical sentinel
result `(None, 0.0)`, and the alternate entry point collapses an odd
length to the bare sentinel `None`: failures are swallowed and replaced by
a sentinel default, not surfaced as typed results with diagnostic
context. -/
theorem claim_C4_counterexample :
    generate_quantum_alphanumeric_string "X".toList 1 false (fun _ => []) = (none, 0)
  ∧ generate_quantum_alphanumeric_string "D".toList 0 false (fun _ => []) = (none, 0)
  ∧ generate_quantum_alphanumeric 3 1 (fun _ => []) = none := by
  refine ⟨?_, ?_, rfl⟩
  · have h : generateCore "X".toList 1 false (fun _ => []) =
        .error .invalidPatternChars := rfl
    simp only [generate_quantum_alphanumeric_string, h]
  · have h : generateCore "D".toList 0 false (fun _ => []) =
        .error .invalidShots := rfl
    simp only [generate_quantum_alphanumeric_string, h]

/-- C4 amended: no failure surfaces to the caller with diagnostic context;
every internal error of the pattern entry point is caught and replaced by
the sentinel `(None, 0.0)`, and every internal error of the alternate
entry point by the sentinel `None`. -/
theorem claim_C4_amended :
    (∀ pattern (shots : Int) (parallel : Bool) pr e,
        generateCore pattern shots parallel pr = .error e →
        generate_quantum_alphanumeric_string pattern shots parallel pr = (none, 0))
  ∧ (∀ (len shots : Int) pr e, altCore len shots pr = .error e →
        generate_quantum_alphanumeric len shots pr = none) := by
  constructor
  · intro pattern shots parallel pr e h
    simp only [generate_quantum_alphanumeric_string, h]
  · intro len shots pr e h
    simp only [generate_quantum_alphanumeric, h]

/-- Witness for C4 (amended): the sentinel at an invalid pattern in
parallel mode. -/
theorem claim_C4_witness :
    generate_quantum_alphanumeric_string "X".toList 2 true (fun _ => []) = (none, 0) :=
  claim_C4_amended.1 "X".toList 2 true (fun _ => []) GenError.invalidPatternChars rfl

/-- C5 counterexample: in sequential mode there is no width check at all —
a 3-bit sample supplied for a Letter position (which needs 5 bits) is
accepted silently and mapped to `'a'` (`int("000", 2) % 26 = 0`), instead
of failing with a bit-length mismatch. -/
theorem claim_C5_counterexample :
    generateCore "L".toList 1 false (fun _ => [false, false, false]) =
      .ok [['a']] := rfl

/-- C5 amended: only the parallel (batch) mode checks sample widths — a
3-bit combined draw for a Letter position fails the request with a
bit-length mismatch naming expected width 5 and actual width 3, and in
general a short slice fails naming the position's expected width and the
slice's actual length — while sequential mode performs no width check and
maps whatever bits the provider returns. -/
theorem claim_C5_amended :
    generateCore "L".toList 2 true (fun _ => [false, false, false]) =
      .error (.bitLengthMismatch 5 3 0)
  ∧ (∀ cl rest (key : List Bool) bitIndex,
        ((key.drop bitIndex).take (widthOf cl)).length ≠ widthOf cl →
        parGenStringAux (cl :: rest) key bitIndex =
          .error (.bitLengthMismatch (widthOf cl)
            ((key.drop bitIndex).take (widthOf cl)).length bitIndex))
  ∧ (∀ pr : Nat → List Bool, (pr 0).length = 3 →
        generateCore "L".toList 1 false pr = .ok [[mapClass CharClass.L (pr 0)]]) := by
  refine ⟨rfl, ?_, ?_⟩
  · intro cl rest key bitIndex h
    rw [parGenStringAux, if_pos h]
  · intro pr _
    have hpat : patternClasses "L".toList = .ok [CharClass.L] := rfl
    simp only [generateCore, hpat]
    rw [if_neg (by norm_num : ¬ (1 : Int) ≤ 0)]
    rw [if_neg (by rintro ⟨-, h⟩; exact absurd h (by norm_num))]
    have hr : List.range 1 = [0] := rfl
    simp [seqGenBatch, seqGenString, hr]

/-- Witness for C5 (amended): the mismatch error names expected width 5
and actual width 0 on an empty key. -/
theorem claim_C5_witness :
    parGenStringAux [CharClass.L] [] 0 = .error (.bitLengthMismatch 5 0 0) :=
  claim_C5_amended.2.1 CharClass.L [] [] 0 (by decide)

/-- C6 counterexample: the convenience entry point never validates the
shot count — with a valid even length and `shots = 0` it returns a
successful empty batch instead of failing with an invalid-shot-count
error. -/
theorem claim_C6_counterexample :
    generate_quantum_alphanumeric 2 0 (fun _ => []) = some (.many []) := rfl

/-- C6 amended: the pattern entry point rejects `"DXL"`, and both its
validation failures (invalid pattern, non-positive shot count) abort the
whole request with an error computed independently of the provider (so no
entropy is consumed and no partial batch exists); the alternate entry
point likewise rejects a non-positive or odd length before any provider
interaction, but it performs no shot-count validation: a non-positive
shot count with a valid length yields a successful empty batch. -/
theorem claim_C6_amended :
    generateCore "DXL".toList 1 false (fun _ => []) = .error .invalidPatternChars
  ∧ (∀ pattern (shots : Int) (parallel : Bool) pr pr',
       ((∃ e₀, patternClasses pattern = .error e₀) ∨ shots ≤ 0) →
       generateCore pattern shots parallel pr = generateCore pattern shots parallel pr' ∧
       ∃ e, generateCore pattern shots parallel pr = .error e)
  ∧ (∀ (len shots : Int) pr pr', (len ≤ 0 ∨ len % 2 ≠ 0) →
       altCore len shots pr = altCore len shots pr' ∧
       ∃ e, altCore len shots pr = .error e)
  ∧ (∀ (len shots : Int) pr, 0 < len → len % 2 = 0 → shots ≤ 0 →
       generate_quantum_alphanumeric len shots pr = some (.many [])) := by
  refine ⟨rfl, ?_, ?_, ?_⟩
  · intro pattern shots parallel pr pr' h
    rcases h with ⟨e₀, he⟩ | hs
    · have h1 : ∀ q, generateCore pattern shots parallel q = .error e₀ := by
        intro q; simp only [generateCore, he]
      exact ⟨(h1 pr).trans (h1 pr').symm, e₀, h1 pr⟩
    · cases hpc : patternClasses pattern with
      | error e₀ =>
          have h1 : ∀ q, generateCore pattern shots parallel q = .error e₀ := by
            intro q; simp only [generateCore, hpc]
          exact ⟨(h1 pr).trans (h1 pr').symm, e₀, h1 pr⟩
      | ok pat =>
          have h1 : ∀ q, generateCore pattern shots parallel q =
              .error .invalidShots := by
            intro q
            simp only [generateCore, hpc]
            rw [if_pos hs]
          exact ⟨(h1 pr).trans (h1 pr').symm, _, h1 pr⟩
  · intro len shots pr pr' h
    by_cases h0 : len ≤ 0
    · have h1 : ∀ q, altCore len shots q = .error .invalidLength := by
        intro q; unfold altCore; rw [if_pos h0]
      exact ⟨(h1 pr).trans (h1 pr').symm, _, h1 pr⟩
    · have h2 : len % 2 ≠ 0 := h.resolve_left h0
      have h1 : ∀ q, altCore len shots q = .error .oddLength := by
        intro q; unfold altCore; rw [if_neg h0, if_pos h2]
      exact ⟨(h1 pr).trans (h1 pr').symm, _, h1 pr⟩
  · intro len shots pr h1 h2 h3
    have hn : shots.toNat = 0 := by omega
    have hcore : altCore len shots pr = .ok [] := by
      unfold altCore
      rw [if_neg (by omega), if_neg (by omega), hn]
      rfl
    simp only [generate_quantum_alphanumeric, hcore]
    rw [packResults, if_neg (by omega : ¬ shots = 1)]

/-- Witness for C6 (amended): an odd length fails identically for two
different providers. -/
theorem claim_C6_witness :
    altCore 3 5 (fun _ => []) = altCore 3 5 (fun _ => [true]) ∧
    ∃ e, altCore 3 5 (fun _ => []) = .error e :=
  claim_C6_amended.2.2.1 3 5 (fun _ => []) (fun _ => [true]) (by decide)

theorem altGenString_length (len : Nat) (pr : Nat → List Bool) (base : Nat) :
    (altGenString len pr base).length = len := by
  simp [altGenString]

/-- C9: the convenience form fails for an odd or non-positive length; for a
valid length it produces, per shot, a string whose even-indexed characters
are digits and odd-indexed characters are lowercase letters, one string
per requested shot, each of the requested length. -/
theorem claim_C9_alternating_form :
    (∀ (len shots : Int) pr, len ≤ 0 ∨ len % 2 = 1 →
        generate_quantum_alphanumeric len shots pr = none)
  ∧ (∀ (len : Nat) (pr : Nat → List Bool) base i, i < len →
        (altGenString len pr base).getD i ' ' ∈
          (if i % 2 = 0 then digits else letters))
  ∧ (∀ (len shots : Int) pr, 0 < len → len % 2 = 0 → 1 ≤ shots →
        ∃ results, altCore len shots pr = .ok results ∧
          (results.length : Int) = shots ∧
          ∀ g ∈ results, g.length = len.toNat) := by
  refine ⟨?_, ?_, ?_⟩
  · intro len shots pr h
    have he : ∃ e, altCore len shots pr = .error e := by
      by_cases h0 : len ≤ 0
      · exact ⟨_, by unfold altCore; rw [if_pos h0]⟩
      · have h1 : len % 2 = 1 := h.resolve_left h0
        exact ⟨_, by unfold altCore; rw [if_neg h0, if_pos (by omega)]⟩
    obtain ⟨e, he⟩ := he
    simp only [generate_quantum_alphanumeric, he]
  · intro len pr base i hi
    have hlen : i < ((List.range len).map (fun i =>
        mapClass (if i % 2 = 0 then CharClass.D else CharClass.L)
          (pr (base + i)))).length := by
      simpa using hi
    rw [altGenString, List.getD_eq_getElem _ _ hlen, List.getElem_map,
      List.getElem_range]
    by_cases hp : i % 2 = 0
    · rw [if_pos hp, if_pos hp]
      exact mapClass_mem CharClass.D (pr (base + i))
    · rw [if_neg hp, if_neg hp]
      exact mapClass_mem CharClass.L (pr (base + i))
  · intro len shots pr h1 h2 h3
    refine ⟨(List.range shots.toNat).map
      (fun s => altGenString len.toNat pr (s * len.toNat)), ?_, ?_, ?_⟩
    · unfold altCore
      rw [if_neg (by omega), if_neg (by omega)]
    · simp only [List.length_map, List.length_range]
      omega
    · intro g hg
      simp only [List.mem_map] at hg
      obtain ⟨s, _, rfl⟩ := hg
      exact altGenString_length _ _ _

/-- Witness for C9 at length 2, one shot. -/
theorem claim_C9_witness :
    ∃ results, altCore 2 1 (fun _ => []) = .ok results ∧
      (results.length : Int) = 1 ∧
      ∀ g ∈ results, g.length = (2 : Int).toNat :=
  claim_C9_alternating_form.2.2 2 1 (fun _ => []) (by decide) (by decide) (by decide)

/-- C10: both generation functions pack a single-shot success as the bare
generated string (not a one-element list) and a multi-shot success as the
list of all `shots` strings; the pattern-based function additionally pairs
the packed value with the entropy of the generated batch. -/
theorem claim_C10_packing :
    (∀ pattern (shots : Int) (parallel : Bool) pr results,
        generateCore pattern shots parallel pr = .ok results →
        generate_quantum_alphanumeric_string pattern shots parallel pr =
          (some (packResults shots results), calculate_entropy results))
  ∧ (∀ pattern pat (parallel : Bool) pr, patternClasses pattern = .ok pat →
        ∃ g, generate_quantum_alphanumeric_string pattern 1 parallel pr =
          (some (.one g), calculate_entropy [g]) ∧ g.length = pattern.length)
  ∧ (∀ pattern pat (shots : Int) (parallel : Bool) pr,
        patternClasses pattern = .ok pat → 1 < shots →
        (∀ j, (pr j).length = totalWidth pat) →
        ∃ results, generate_quantum_alphanumeric_string pattern shots parallel pr =
          (some (.many results), calculate_entropy results) ∧
          (results.length : Int) = shots)
  ∧ (∀ (len : Int) pr, 0 < len → len % 2 = 0 →
        ∃ g, generate_quantum_alphanumeric len 1 pr = some (.one g) ∧
          g.length = len.toNat)
  ∧ (∀ (len shots : Int) pr, 0 < len → len % 2 = 0 → 1 < shots →
        ∃ results, generate_quantum_alphanumeric len shots pr =
          some (.many results) ∧ (results.length : Int) = shots) := by
  refine ⟨?_, ?_, ?_, ?_, ?_⟩
  · intro pattern shots parallel pr results h
    simp only [generate_quantum_alphanumeric_string, h]
  · intro pattern pat parallel pr hpat
    have hcore : generateCore pattern 1 parallel pr =
        .ok [seqGenString pat pr 0] := by
      simp only [generateCore, hpat]
      rw [if_neg (by norm_num : ¬ (1 : Int) ≤ 0)]
      rw [if_neg (by rintro ⟨-, h⟩; exact absurd h (by norm_num))]
      have hr : List.range 1 = [0] := rfl
      simp [seqGenBatch, hr]
    refine ⟨seqGenString pat pr 0, ?_,
      by rw [seqGenString_length, patternClasses_ok_length _ _ hpat]⟩
    simp only [generate_quantum_alphanumeric_string, hcore]
    rw [packResults, if_pos rfl]
    simp only [List.getD_cons_zero]
  · intro pattern pat shots parallel pr hpat hshots hpr
    obtain ⟨results, hcore, hlen, -⟩ :=
      generateCore_valid_shape pattern pat shots parallel pr hpat (by omega) hpr
    refine ⟨results, ?_, hlen⟩
    simp only [generate_quantum_alphanumeric_string, hcore]
    rw [packResults, if_neg (by omega : ¬ shots = 1)]
  · intro len pr h1 h2
    have hcore : altCore len 1 pr = .ok [altGenString len.toNat pr 0] := by
      unfold altCore
      rw [if_neg (by omega), if_neg (by omega)]
      have hr : List.range 1 = [0] := rfl
      simp [hr]
    refine ⟨altGenString len.toNat pr 0, ?_, altGenString_length _ _ _⟩
    simp only [generate_quantum_alphanumeric, hcore]
    rw [packResults, if_pos rfl]
    simp only [List.getD_cons_zero]
  · intro len shots pr h1 h2 h3
    have hcore : altCore len shots pr = .ok ((List.range shots.toNat).map
        (fun s => altGenString len.toNat pr (s * len.toNat))) := by
      unfold altCore
      rw [if_neg (by omega), if_neg (by omega)]
    refine ⟨(List.range shots.toNat).map
      (fun s => altGenString len.toNat pr (s * len.toNat)), ?_, ?_⟩
    · simp only [generate_quantum_alphanumeric, hcore]
      rw [packResults, if_neg (by omega : ¬ shots = 1)]
    · simp only [List.length_map, List.length_range]
      omega

/-- Witness for C10 at pattern `"D"`, one shot, sequential mode. -/
theorem claim_C10_witness :
    ∃ g, generate_quantum_alphanumeric_string "D".toList 1 false (fun _ => []) =
      (some (.one g), calculate_entropy [g]) ∧ g.length = "D".toList.length :=
  claim_C10_packing.2.1 "D".toList [CharClass.D] false (fun _ => []) rfl

theorem streamSlice_length (s : Nat → Bool) (off w : Nat) :
    (streamSlice s off w).length = w := by
  simp [streamSlice]

theorem streamSlice_drop_take (s : Nat → Bool) (off T bi w : Nat) (h : bi + w ≤ T) :
    ((streamSlice s off T).drop bi).take w = streamSlice s (off + bi) w := by
  apply List.ext_getElem
  · simp [streamSlice]
    omega
  · intro k h1 h2
    simp only [streamSlice, List.getElem_take, List.getElem_drop, List.getElem_map,
      List.getElem_range]
    congr 1
    omega

theorem sliceString_streamSlice (pat : List CharClass) (s : Nat → Bool)
    (off T : Nat) :
    ∀ bi, bi + totalWidth pat ≤ T →
    sliceString pat (streamSlice s off T) bi = specString pat s (off + bi) := by
  induction pat with
  | nil => intro bi _; rfl
  | cons cl rest ih =>
      intro bi h
      rw [totalWidth_cons] at h
      rw [sliceString, specString]
      congr 1
      · rw [streamSlice_drop_take s off T bi (widthOf cl) (by omega)]
      · rw [ih (bi + widthOf cl) (by omega)]
        congr 1
        omega

theorem seqGenString_eq_spec (s : Nat → Bool) :
    ∀ (pat : List CharClass) (pr : Nat → List Bool) (base off : Nat),
      (∀ k, k < pat.length →
        pr (base + k) = streamSlice s (off + totalWidth (pat.take k))
          (widthOf (pat.getD k CharClass.D))) →
      seqGenString pat pr base = specString pat s off := by
  intro pat
  induction pat with
  | nil => intro pr base off _; rfl
  | cons cl rest ih =>
      intro pr base off h
      rw [seqGenString, specString]
      congr 1
      · exact congrArg (mapClass cl) (h 0 (by simp))
      · apply ih pr (base + 1) (off + widthOf cl)
        intro k hk
        have hk1 := h (k + 1) (by simpa using hk)
        rw [List.take_succ_cons, totalWidth_cons, List.getD_cons_succ] at hk1
        have e1 : base + (k + 1) = base + 1 + k := by omega
        rw [e1, ← Nat.add_assoc] at hk1
        exact hk1

theorem seqProvider_call (pat : List CharClass) (s : Nat → Bool) (j k : Nat)
    (hk : k < pat.length) :
    seqProvider pat s (j * pat.length + k) =
      streamSlice s (j * totalWidth pat + totalWidth (pat.take k))
        (widthOf (pat.getD k CharClass.D)) := by
  have hlen : 0 < pat.length := by omega
  have hdiv : (j * pat.length + k) / pat.length = j := by
    rw [Nat.add_comm, Nat.mul_comm, Nat.add_mul_div_left _ _ hlen,
      Nat.div_eq_of_lt hk]
    omega
  have hmod : (j * pat.length + k) % pat.length = k := by
    rw [Nat.add_comm, Nat.mul_comm, Nat.add_mul_mod_self_left,
      Nat.mod_eq_of_lt hk]
  unfold seqProvider
  rw [hdiv, hmod]

theorem parGenString_stream (pat : List CharClass) (s : Nat → Bool) (j : Nat) :
    parGenString pat (parProvider pat s j) =
      .ok (specString pat s (j * totalWidth pat)) := by
  unfold parGenString parProvider
  rw [parGenStringAux_eq_slice pat _ 0 (by rw [streamSlice_length]; omega)]
  rw [sliceString_streamSlice pat s (j * totalWidth pat) (totalWidth pat) 0
    (by omega)]
  rfl

theorem seqGenString_stream (pat : List CharClass) (s : Nat → Bool) (j : Nat) :
    seqGenString pat (seqProvider pat s) (j * pat.length) =
      specString pat s (j * totalWidth pat) := by
  cases pat with
  | nil => rfl
  | cons cl rest =>
      apply seqGenString_eq_spec
      intro k hk
      exact seqProvider_call (cl :: rest) s j k hk

/-- C7: per generated string, the bits consumed amount to the sum of the
per-position widths (4 per Digit, 5 per Letter position), and sequential
and batch modes consuming the same underlying bit stream in the documented
slicing order produce an identical generated batch, for every pattern and
shot count. -/
theorem claim_C7_mode_equivalence :
    (∀ (pat : List CharClass) (s : Nat → Bool) (shots : Nat),
        parGenBatch pat (parProvider pat s) shots =
          .ok (seqGenBatch pat (seqProvider pat s) shots))
  ∧ (∀ pat : List CharClass, totalWidth pat =
        4 * pat.count CharClass.D + 5 * pat.count CharClass.L) := by
  constructor
  · intro pat s shots
    rw [parGenBatch, seqGenBatch]
    rw [runShots_ok pat (parProvider pat s)
      (fun j => specString pat s (j * totalWidth pat)) _
      (fun j _ => parGenString_stream pat s j)]
    congr 1
    exact List.map_congr_left (fun j _ => (seqGenString_stream pat s j).symm)
  · intro pat
    induction pat with
    | nil => rfl
    | cons cl rest ih =>
        rw [totalWidth_cons, ih]
        cases cl <;> simp [widthOf, List.count_cons] <;> omega

end QRNG
